import Mathlib

/-!
Shallow embedding of `src/cache_manager.c`: a bounded-capacity LRU cache
built from a fixed-bucket separate-chaining hash table and an intrusive
doubly-linked recency list, plus theorems checking the specification's
claims against it.

Modelling choices:
* C strings (keys and values) are byte sequences, `List Nat`.
* Heap nodes are an arena: each node has a stable id (`Nat`), the hash
  chains and the recency list store ids, and `nodes : Nat → Node` maps an
  id to its current key/value payload.  This reproduces the C sharing:
  the upsert path's in-place value write (`cur->value = nv`) is visible
  through both structures, exactly as for the shared `node*`.
* `malloc`/`strdup` failure is an explicit `allocOk : Bool` oracle.
* The doubly-linked list is represented by its node order, head first;
  `dll_remove` unlinks a given node (`List.erase` of its id, which removes
  exactly the first occurrence, i.e. the node itself, matching pointer
  unlinking), `dll_push_head` conses, the tail is `List.getLast?`.
* `htable_remove` walks the chain by identity (`List.erase` of the id);
  the inline delete loop removes the first `strcmp` match (`List.eraseP`).
-/

namespace CacheManager

/-- A C string's bytes (`char *` contents up to the terminator). -/
abbrev Str := List Nat

/-- djb2 string hash (`hash_str`): `hash = hash * 33 + c`, seeded at 5381,
in 64-bit unsigned arithmetic. -/
def hash_str (s : Str) : Nat :=
  s.foldl (fun h c => (h * 33 + c) % 2 ^ 64) 5381

/-- One cache slot (`struct node`): the owned key and value.  The `prev` /
`next` / `hnext` links are represented positionally by the id's place in
`Cache.dll` and in its hash chain. -/
structure Node where
  key : Str
  value : Str
deriving DecidableEq, Repr

instance : Inhabited Node := ⟨⟨[], []⟩⟩

/-- The cache (`struct cache_t`).  `htable` has `hsize` buckets, each a
chain of node ids; `dll` is the recency list, most recently used first
(so the C `head` is `dll.head?` and `tail` is `dll.getLast?`);
`nodes` is the arena backing the allocated nodes and `nextId` the next
fresh id (freshness of allocation). -/
structure Cache where
  capacity : Nat
  size : Nat
  hsize : Nat
  htable : List (List Nat)
  dll : List Nat
  nodes : Nat → Node
  nextId : Nat

/-- Bucket index of a key: `hash_str(key) % hsize`. -/
def bucketIdx (c : Cache) (key : Str) : Nat :=
  hash_str key % c.hsize

/-- The chain stored in bucket `hv`. -/
def chainAt (c : Cache) (hv : Nat) : List Nat :=
  c.htable.getD hv []

/-- `dll_remove`: unlink node `id` from the recency list. -/
def dll_remove (c : Cache) (id : Nat) : Cache :=
  { c with dll := c.dll.erase id }

/-- `dll_push_head`: make node `id` the most recently used. -/
def dll_push_head (c : Cache) (id : Nat) : Cache :=
  { c with dll := id :: c.dll }

/-- `htable_remove`: unlink node `id` (by identity) from its bucket's
chain, the bucket being recomputed from the node's key. -/
def htable_remove (c : Cache) (id : Nat) : Cache :=
  let hv := bucketIdx c (c.nodes id).key
  { c with htable := c.htable.set hv ((chainAt c hv).erase id) }

/-- `htable_insert`: prepend node `id` to its bucket's chain. -/
def htable_insert (c : Cache) (id : Nat) : Cache :=
  let hv := bucketIdx c (c.nodes id).key
  { c with htable := c.htable.set hv (id :: chainAt c hv) }

/-- The chain-scan loop shared by `cache_put`, `cache_get` and
`cache_delete`: walk the key's bucket comparing keys (`strcmp`), returning
the first matching node. -/
def chain_find (c : Cache) (key : Str) : Option Nat :=
  (chainAt c (bucketIdx c key)).find? fun id => decide ((c.nodes id).key = key)

/-- `dll_remove` followed by `dll_push_head` on the same node: the
promotion step of the upsert path of `cache_put` and of the second phase
of `cache_get`. -/
def move_to_front (c : Cache) (id : Nat) : Cache :=
  dll_push_head (dll_remove c id) id

/-- Upsert path of `cache_put` after the `strdup` of the new value
succeeded: write the new value into the shared node, then move the node
to the recency head. -/
def put_update (c : Cache) (id : Nat) (value : Str) : Cache :=
  let c := { c with nodes := Function.update c.nodes id ⟨(c.nodes id).key, value⟩ }
  move_to_front c id

/-- Insert path of `cache_put` after `node_create` succeeded: allocate a
fresh node holding copies of the key and value, insert it into the hash
table, push it to the recency head, and increment `size`. -/
def put_insert (c : Cache) (key value : Str) : Cache :=
  let id := c.nextId
  let c := { c with nodes := Function.update c.nodes id ⟨key, value⟩
                    nextId := c.nextId + 1 }
  let c := dll_push_head (htable_insert c id) id
  { c with size := c.size + 1 }

/-- Overflow handling of `cache_put`: take the recency tail (`ev =
cache->tail`); if it exists, unlink it from the recency list and the hash
table, decrement `size`, and free it. -/
def evict_tail (c : Cache) : Cache :=
  match c.dll.getLast? with
  | some ev =>
      let c := htable_remove (dll_remove c ev) ev
      { c with size := c.size - 1 }
  | none => c

/-- `cache_create(capacity)`: `NULL` when `capacity == 0` or an allocation
fails; otherwise a cache with `hsize = capacity * 2 + 1` zeroed buckets,
empty recency list and `size = 0`. -/
def cache_create (allocOk : Bool) (capacity : Nat) : Option Cache :=
  if capacity = 0 then none
  else if allocOk then
    some { capacity := capacity
           size := 0
           hsize := capacity * 2 + 1
           htable := List.replicate (capacity * 2 + 1) []
           dll := []
           nodes := fun _ => default
           nextId := 0 }
  else none

/-- `cache_put(cache, key, value)` body (inside the write lock).  If the
key is found in its chain: `strdup` the new value (may fail), write it
into the shared node, and move the node to the recency head; `size` is
untouched.  Otherwise `node_create` a fresh node (may fail), insert it in
the hash table, push it to the recency head, increment `size`, and if
`size > capacity` evict the recency tail: unlink it from both structures
and decrement `size`.  Returns `0` on success, `-1` on allocation
failure. -/
def cache_put (allocOk : Bool) (c : Cache) (key value : Str) : Cache × Int :=
  match chain_find c key with
  | some id =>
      if allocOk then (put_update c id value, 0) else (c, -1)
  | none =>
      if allocOk then
        let c := put_insert c key value
        if c.capacity < c.size then (evict_tail c, 0) else (c, 0)
      else (c, -1)

/-- First phase of `cache_get` (under the read lock): scan the key's
chain. -/
def cache_get_lookup (c : Cache) (key : Str) : Option Nat :=
  chain_find c key

/-- Second phase of `cache_get` (under the write lock, after the read
lock was released): scan the chain again; if found, move the node to the
recency head and return a copy of its value, else `NULL`. -/
def cache_get_promote (c : Cache) (key : Str) : Cache × Option Str :=
  match chain_find c key with
  | some id => (move_to_front c id, some ((c.nodes id).value))
  | none => (c, none)

/-- `cache_get(cache, key)` when no other thread interleaves between its
two locked phases: if the first lookup misses, return `NULL`; otherwise
run the promotion phase. -/
def cache_get (c : Cache) (key : Str) : Cache × Option Str :=
  match cache_get_lookup c key with
  | none => (c, none)
  | some _ => cache_get_promote c key

/-- `cache_delete(cache, key)` body (inside the write lock): walk the
key's chain; if no match return `1` ("not found"); otherwise unlink the
first matching node from the chain and from the recency list, free it,
decrement `size`, and return `0`. -/
def cache_delete (c : Cache) (key : Str) : Cache × Int :=
  let hv := bucketIdx c key
  match chain_find c key with
  | none => (c, 1)
  | some id =>
      let chain := (chainAt c hv).eraseP fun j => decide ((c.nodes j).key = key)
      let c := { c with htable := c.htable.set hv chain }
      let c := dll_remove c id
      ({ c with size := c.size - 1 }, 0)

/-- `cache_put` including its argument check: `if (!cache || !key ||
!value) return -1;`. -/
def cache_put_checked (allocOk : Bool) :
    Option Cache → Option Str → Option Str → Option Cache × Int
  | some c, some k, some v => ((cache_put allocOk c k v).1, (cache_put allocOk c k v).2)
  | c, _, _ => (c, -1)

/-- `cache_get` including its argument check: `if (!cache || !key)
return NULL;`. -/
def cache_get_checked : Option Cache → Option Str → Option Cache × Option Str
  | some c, some k => ((cache_get c k).1, (cache_get c k).2)
  | c, _ => (c, none)

/-- `cache_delete` including its argument check: `if (!cache || !key)
return -1;`. -/
def cache_delete_checked : Option Cache → Option Str → Option Cache × Int
  | some c, some k => ((cache_delete c k).1, (cache_delete c k).2)
  | c, _ => (c, -1)

/-- Lock events issued by an operation, in program order. -/
inductive LockEv
  | rd
  | wr
  | unlock
deriving DecidableEq, Repr

/-- The lock trace of `cache_get` on the path where the first lookup
finds the key (source lines 156–178): read lock, search, unlock, write
lock, search again, unlock. -/
def cache_get_lock_trace_hit : List LockEv :=
  [LockEv.rd, LockEv.unlock, LockEv.wr, LockEv.unlock]

/-- The lock trace of an operation that holds a single exclusive
critical section for its whole duration. -/
def single_exclusive_trace : List LockEv :=
  [LockEv.wr, LockEv.unlock]

/-- The keys currently stored, most recently used first. -/
def cache_keys (c : Cache) : List Str :=
  c.dll.map fun id => (c.nodes id).key

/-- The stored key–value pairs in recency order, most recently used
first. -/
def entries (c : Cache) : List (Str × Str) :=
  c.dll.map fun id => ((c.nodes id).key, (c.nodes id).value)

/-- Fold a sequence of `put` calls over a cache; each element carries the
allocation oracle for that call and the key and value. -/
def runPuts (c : Cache) (ops : List (Bool × Str × Str)) : Cache :=
  ops.foldl (fun c op => (cache_put op.1 c op.2.1 op.2.2).1) c

/-- A public mutating operation, for quantifying over call sequences. -/
inductive Op
  | put (allocOk : Bool) (key value : Str)
  | get (key : Str)
  | del (key : Str)

/-- Apply one public operation to a cache state. -/
def applyOp (c : Cache) : Op → Cache
  | Op.put ok k v => (cache_put ok c k v).1
  | Op.get k => (cache_get c k).1
  | Op.del k => (cache_delete c k).1

/-- Apply a sequence of public operations. -/
def runOps (c : Cache) (ops : List Op) : Cache :=
  ops.foldl applyOp c

/-- A concrete 2-capacity cache produced by `cache_create`, used by the
concrete witnesses below. -/
def cache2 : Cache :=
  { capacity := 2
    size := 0
    hsize := 5
    htable := List.replicate 5 []
    dll := []
    nodes := fun _ => default
    nextId := 0 }

/-- A concrete 1-capacity cache produced by `cache_create`. -/
def cache1 : Cache :=
  { capacity := 1
    size := 0
    hsize := 3
    htable := List.replicate 3 []
    dll := []
    nodes := fun _ => default
    nextId := 0 }

/-- The 1-capacity cache holding key `[1]` with value `[10]`. -/
def raceCache : Cache :=
  (cache_put true cache1 [1] [10]).1

/-! ### Projection lemmas for the primitive steps -/

@[simp] theorem dll_remove_capacity (c : Cache) (id : Nat) :
    (dll_remove c id).capacity = c.capacity := rfl
@[simp] theorem dll_remove_size (c : Cache) (id : Nat) :
    (dll_remove c id).size = c.size := rfl
@[simp] theorem dll_remove_hsize (c : Cache) (id : Nat) :
    (dll_remove c id).hsize = c.hsize := rfl
@[simp] theorem dll_remove_htable (c : Cache) (id : Nat) :
    (dll_remove c id).htable = c.htable := rfl
@[simp] theorem dll_remove_nodes (c : Cache) (id : Nat) :
    (dll_remove c id).nodes = c.nodes := rfl
@[simp] theorem dll_remove_nextId (c : Cache) (id : Nat) :
    (dll_remove c id).nextId = c.nextId := rfl
@[simp] theorem dll_remove_dll (c : Cache) (id : Nat) :
    (dll_remove c id).dll = c.dll.erase id := rfl

@[simp] theorem dll_push_head_capacity (c : Cache) (id : Nat) :
    (dll_push_head c id).capacity = c.capacity := rfl
@[simp] theorem dll_push_head_size (c : Cache) (id : Nat) :
    (dll_push_head c id).size = c.size := rfl
@[simp] theorem dll_push_head_hsize (c : Cache) (id : Nat) :
    (dll_push_head c id).hsize = c.hsize := rfl
@[simp] theorem dll_push_head_htable (c : Cache) (id : Nat) :
    (dll_push_head c id).htable = c.htable := rfl
@[simp] theorem dll_push_head_nodes (c : Cache) (id : Nat) :
    (dll_push_head c id).nodes = c.nodes := rfl
@[simp] theorem dll_push_head_nextId (c : Cache) (id : Nat) :
    (dll_push_head c id).nextId = c.nextId := rfl
@[simp] theorem dll_push_head_dll (c : Cache) (id : Nat) :
    (dll_push_head c id).dll = id :: c.dll := rfl

@[simp] theorem htable_remove_capacity (c : Cache) (id : Nat) :
    (htable_remove c id).capacity = c.capacity := rfl
@[simp] theorem htable_remove_size (c : Cache) (id : Nat) :
    (htable_remove c id).size = c.size := rfl
@[simp] theorem htable_remove_hsize (c : Cache) (id : Nat) :
    (htable_remove c id).hsize = c.hsize := rfl
@[simp] theorem htable_remove_nodes (c : Cache) (id : Nat) :
    (htable_remove c id).nodes = c.nodes := rfl
@[simp] theorem htable_remove_nextId (c : Cache) (id : Nat) :
    (htable_remove c id).nextId = c.nextId := rfl
@[simp] theorem htable_remove_dll (c : Cache) (id : Nat) :
    (htable_remove c id).dll = c.dll := rfl
theorem htable_remove_htable (c : Cache) (id : Nat) :
    (htable_remove c id).htable =
      c.htable.set (bucketIdx c (c.nodes id).key)
        ((chainAt c (bucketIdx c (c.nodes id).key)).erase id) := rfl

@[simp] theorem htable_insert_capacity (c : Cache) (id : Nat) :
    (htable_insert c id).capacity = c.capacity := rfl
@[simp] theorem htable_insert_size (c : Cache) (id : Nat) :
    (htable_insert c id).size = c.size := rfl
@[simp] theorem htable_insert_hsize (c : Cache) (id : Nat) :
    (htable_insert c id).hsize = c.hsize := rfl
@[simp] theorem htable_insert_nodes (c : Cache) (id : Nat) :
    (htable_insert c id).nodes = c.nodes := rfl
@[simp] theorem htable_insert_nextId (c : Cache) (id : Nat) :
    (htable_insert c id).nextId = c.nextId := rfl
@[simp] theorem htable_insert_dll (c : Cache) (id : Nat) :
    (htable_insert c id).dll = c.dll := rfl
theorem htable_insert_htable (c : Cache) (id : Nat) :
    (htable_insert c id).htable =
      c.htable.set (bucketIdx c (c.nodes id).key)
        (id :: chainAt c (bucketIdx c (c.nodes id).key)) := rfl

@[simp] theorem move_to_front_capacity (c : Cache) (id : Nat) :
    (move_to_front c id).capacity = c.capacity := rfl
@[simp] theorem move_to_front_size (c : Cache) (id : Nat) :
    (move_to_front c id).size = c.size := rfl
@[simp] theorem move_to_front_hsize (c : Cache) (id : Nat) :
    (move_to_front c id).hsize = c.hsize := rfl
@[simp] theorem move_to_front_htable (c : Cache) (id : Nat) :
    (move_to_front c id).htable = c.htable := rfl
@[simp] theorem move_to_front_nodes (c : Cache) (id : Nat) :
    (move_to_front c id).nodes = c.nodes := rfl
@[simp] theorem move_to_front_nextId (c : Cache) (id : Nat) :
    (move_to_front c id).nextId = c.nextId := rfl
@[simp] theorem move_to_front_dll (c : Cache) (id : Nat) :
    (move_to_front c id).dll = id :: c.dll.erase id := rfl

@[simp] theorem put_update_capacity (c : Cache) (id : Nat) (v : Str) :
    (put_update c id v).capacity = c.capacity := rfl
@[simp] theorem put_update_size (c : Cache) (id : Nat) (v : Str) :
    (put_update c id v).size = c.size := rfl
@[simp] theorem put_update_hsize (c : Cache) (id : Nat) (v : Str) :
    (put_update c id v).hsize = c.hsize := rfl
@[simp] theorem put_update_htable (c : Cache) (id : Nat) (v : Str) :
    (put_update c id v).htable = c.htable := rfl
@[simp] theorem put_update_nextId (c : Cache) (id : Nat) (v : Str) :
    (put_update c id v).nextId = c.nextId := rfl
@[simp] theorem put_update_dll (c : Cache) (id : Nat) (v : Str) :
    (put_update c id v).dll = id :: c.dll.erase id := rfl
theorem put_update_nodes (c : Cache) (id : Nat) (v : Str) :
    (put_update c id v).nodes = Function.update c.nodes id ⟨(c.nodes id).key, v⟩ := rfl

@[simp] theorem put_insert_capacity (c : Cache) (k v : Str) :
    (put_insert c k v).capacity = c.capacity := rfl
@[simp] theorem put_insert_size (c : Cache) (k v : Str) :
    (put_insert c k v).size = c.size + 1 := rfl
@[simp] theorem put_insert_hsize (c : Cache) (k v : Str) :
    (put_insert c k v).hsize = c.hsize := rfl
@[simp] theorem put_insert_nextId (c : Cache) (k v : Str) :
    (put_insert c k v).nextId = c.nextId + 1 := rfl
@[simp] theorem put_insert_dll (c : Cache) (k v : Str) :
    (put_insert c k v).dll = c.nextId :: c.dll := rfl
theorem put_insert_nodes (c : Cache) (k v : Str) :
    (put_insert c k v).nodes = Function.update c.nodes c.nextId ⟨k, v⟩ := rfl

@[simp] theorem evict_tail_capacity (c : Cache) :
    (evict_tail c).capacity = c.capacity := by
  unfold evict_tail
  cases c.dll.getLast? <;> rfl
@[simp] theorem evict_tail_hsize (c : Cache) :
    (evict_tail c).hsize = c.hsize := by
  unfold evict_tail
  cases c.dll.getLast? <;> rfl
@[simp] theorem evict_tail_nodes (c : Cache) :
    (evict_tail c).nodes = c.nodes := by
  unfold evict_tail
  cases c.dll.getLast? <;> rfl
@[simp] theorem evict_tail_nextId (c : Cache) :
    (evict_tail c).nextId = c.nextId := by
  unfold evict_tail
  cases c.dll.getLast? <;> rfl

theorem evict_tail_size_of_cons (c : Cache) (id : Nat) (l : List Nat)
    (h : c.dll = id :: l) : (evict_tail c).size = c.size - 1 := by
  unfold evict_tail
  rw [h]
  cases hl : (id :: l).getLast? with
  | none => simp at hl
  | some ev => rfl

/-! ### Field-preservation lemmas for the public operations -/

theorem cache_put_capacity (ok : Bool) (c : Cache) (k v : Str) :
    ((cache_put ok c k v).1).capacity = c.capacity := by
  unfold cache_put
  cases chain_find c k <;> cases ok <;> simp
  split <;> simp

theorem cache_put_hsize (ok : Bool) (c : Cache) (k v : Str) :
    ((cache_put ok c k v).1).hsize = c.hsize := by
  unfold cache_put
  cases chain_find c k <;> cases ok <;> simp
  split <;> simp

theorem cache_get_hsize (c : Cache) (k : Str) :
    ((cache_get c k).1).hsize = c.hsize := by
  unfold cache_get cache_get_promote cache_get_lookup
  cases chain_find c k <;> simp

theorem cache_get_capacity (c : Cache) (k : Str) :
    ((cache_get c k).1).capacity = c.capacity := by
  unfold cache_get cache_get_promote cache_get_lookup
  cases chain_find c k <;> simp

theorem cache_delete_hsize (c : Cache) (k : Str) :
    ((cache_delete c k).1).hsize = c.hsize := by
  unfold cache_delete
  cases chain_find c k <;> simp [dll_remove]

theorem cache_delete_capacity (c : Cache) (k : Str) :
    ((cache_delete c k).1).capacity = c.capacity := by
  unfold cache_delete
  cases chain_find c k <;> simp [dll_remove]

/-- One `put` keeps `size ≤ capacity`: the upsert path leaves `size`
unchanged, and the insert path increments `size` and, on overflow, evicts
the (always present) recency tail, decrementing it back. -/
theorem cache_put_size_le (ok : Bool) (c : Cache) (k v : Str)
    (h : c.size ≤ c.capacity) :
    ((cache_put ok c k v).1).size ≤ ((cache_put ok c k v).1).capacity := by
  rw [cache_put_capacity]
  unfold cache_put
  cases hf : chain_find c k <;> cases ok <;> simp [h]
  split
  · next hover =>
      have hs : (evict_tail (put_insert c k v)).size = c.size := by
        rw [evict_tail_size_of_cons (put_insert c k v) c.nextId c.dll (by simp)]
        simp
      simpa [hs] using h
  · next hle =>
      simp only [put_insert_size] at hle ⊢
      omega

/-- `size ≤ capacity` is preserved by every sequence of `put` calls. -/
theorem runPuts_size_le (ops : List (Bool × Str × Str)) (c : Cache)
    (h : c.size ≤ c.capacity) :
    (runPuts c ops).size ≤ (runPuts c ops).capacity := by
  induction ops generalizing c with
  | nil => exact h
  | cons op ops ih =>
      have := cache_put_size_le op.1 c op.2.1 op.2.2 h
      simpa [runPuts, List.foldl_cons] using ih _ this

/-! ### Claim theorems (first batch) -/

/-- Claim C1: for every cache created with positive capacity and every
sequence of `put` calls, `size ≤ capacity` holds after every call (the
insert path evicts exactly one entry when the increment overflows the
capacity, restoring the bound). -/
theorem sizeNeverExceedsCapacity (ok : Bool) (cap : Nat) (c0 : Cache)
    (_hcap : 0 < cap) (h : cache_create ok cap = some c0)
    (ops : List (Bool × Str × Str)) :
    (runPuts c0 ops).size ≤ (runPuts c0 ops).capacity := by
  have h0 : c0.size ≤ c0.capacity := by
    unfold cache_create at h
    split at h
    · exact absurd h (by simp)
    · split at h
      · cases h
        simp
      · exact absurd h (by simp)
  exact runPuts_size_le ops c0 h0

/-- Concrete instance of C1: capacity 1, three `put` calls. -/
theorem sizeNeverExceedsCapacity_witness :
    0 < 1 ∧ cache_create true 1 = some cache1 ∧
    (runPuts cache1 [(true, [1], [10]), (true, [2], [20]), (true, [1], [30])]).size ≤
      (runPuts cache1 [(true, [1], [10]), (true, [2], [20]), (true, [1], [30])]).capacity :=
  ⟨by decide, by rfl,
    sizeNeverExceedsCapacity true 1 cache1 (by decide) (by rfl) _⟩

/-- Claim C5 (refuting the claimed implementation behaviour): the
source's `cache_get` takes a read lock for the first lookup, releases
it, then takes the write lock and searches again — the two-phase scheme,
not a single exclusive critical section — and a `delete` interleaved
between the two phases makes the second lookup miss an entry the first
lookup found. -/
theorem getIsTwoPhaseWithRace :
    cache_get_lock_trace_hit ≠ single_exclusive_trace ∧
    LockEv.rd ∈ cache_get_lock_trace_hit ∧
    (cache_get_lookup raceCache [1]).isSome = true ∧
    (cache_get_promote (cache_delete raceCache [1]).1 [1]).2 = none :=
  ⟨by decide, by decide, by decide, by decide⟩

/-- Claim C6: a `put` whose allocation fails (the `strdup` of the new
value in the upsert path, or `node_create` in the insert path) returns
`-1` and leaves the cache exactly as it was — no partial mutation. -/
theorem putAllocFailureNoMutation (c : Cache) (key value : Str) :
    cache_put false c key value = (c, -1) := by
  unfold cache_put
  cases chain_find c key <;> simp

/-- Claim C8: `cache_create` fails exactly on zero capacity or allocation
failure; on success the cache is empty with `capacity * 2 + 1` buckets,
and no later operation ever changes the bucket count. -/
theorem createFailureAndFixedBucketCount (ok : Bool) (cap : Nat) :
    (cache_create ok cap = none ↔ cap = 0 ∨ ok = false) ∧
    (∀ c, cache_create ok cap = some c →
      c.size = 0 ∧ c.dll = [] ∧ c.hsize = cap * 2 + 1) ∧
    (∀ (c : Cache) (ok2 : Bool) (k v : Str),
      ((cache_put ok2 c k v).1).hsize = c.hsize ∧
      ((cache_get c k).1).hsize = c.hsize ∧
      ((cache_delete c k).1).hsize = c.hsize) := by
  refine ⟨?_, ?_, ?_⟩
  · unfold cache_create
    rcases Nat.eq_zero_or_pos cap with hz | hz
    · simp [hz]
    · cases ok <;> simp [Nat.pos_iff_ne_zero.mp hz]
  · intro c h
    unfold cache_create at h
    split at h
    · exact absurd h (by simp)
    · split at h
      · cases h
        exact ⟨rfl, rfl, rfl⟩
      · exact absurd h (by simp)
  · intro c ok2 k v
    exact ⟨cache_put_hsize ok2 c k v, cache_get_hsize c k, cache_delete_hsize c k⟩

/-- Concrete instance of C8 at capacity 2. -/
theorem createFailureAndFixedBucketCount_witness :
    cache_create true 2 = some cache2 ∧
    (cache2.size = 0 ∧ cache2.dll = [] ∧ cache2.hsize = 2 * 2 + 1) :=
  ⟨by rfl, (createFailureAndFixedBucketCount true 2).2.1 cache2 (by rfl)⟩

/-- Claim C10: `cache_get` with a null cache handle or a null key returns
`NULL`, indistinguishable from the `NULL` returned for an absent key. -/
theorem getNullArgsIndistinguishableFromMiss (c : Cache) (k : Str)
    (h : chain_find c k = none) :
    cache_get_checked none (some k) = (none, none) ∧
    cache_get_checked (some c) none = (some c, none) ∧
    (cache_get_checked (some c) (some k)).2 = none := by
  refine ⟨rfl, rfl, ?_⟩
  simp [cache_get_checked, cache_get, cache_get_lookup, h]

/-- Concrete instance of C10: the empty 2-capacity cache and key `[1]`. -/
theorem getNullArgsIndistinguishableFromMiss_witness :
    cache_get_checked none (some [1]) = (none, none) ∧
    cache_get_checked (some cache2) none = (some cache2, none) ∧
    (cache_get_checked (some cache2) (some [1])).2 = none :=
  getNullArgsIndistinguishableFromMiss cache2 [1] (by decide)

/-! ### General list helpers -/

theorem join_set_cons_perm {α : Type} (x : α) :
    ∀ (L : List (List α)) (hv : Nat), hv < L.length →
      ((L.set hv (x :: L.getD hv [])).flatten).Perm (x :: L.flatten)
  | [], hv, h => absurd h (by simp)
  | a :: L, 0, _ => by simp
  | a :: L, hv + 1, h => by
      have ih := join_set_cons_perm x L hv (by simpa using h)
      simp only [List.set_cons_succ, List.getD_cons_succ, List.flatten_cons]
      exact (ih.append_left a).trans List.perm_middle

theorem join_set_erase_perm {α : Type} [DecidableEq α] (x : α) :
    ∀ (L : List (List α)) (hv : Nat), hv < L.length → x ∈ L.getD hv [] →
      (x :: (L.set hv ((L.getD hv []).erase x)).flatten).Perm L.flatten
  | [], hv, h, _ => absurd h (by simp)
  | a :: L, 0, _, hx => by
      simp only [List.getD_cons_zero] at hx
      simp only [List.set_cons_zero, List.getD_cons_zero, List.flatten_cons]
      exact ((List.perm_cons_erase hx).symm).append_right L.flatten
  | a :: L, hv + 1, h, hx => by
      simp only [List.getD_cons_succ] at hx
      have ih := join_set_erase_perm x L hv (by simpa using h) hx
      simp only [List.set_cons_succ, List.getD_cons_succ, List.flatten_cons]
      exact List.perm_middle.symm.trans (ih.append_left a)

theorem erase_getLast?_eq_dropLast {α : Type} [DecidableEq α] :
    ∀ (l : List α), l.Nodup → ∀ a, l.getLast? = some a → l.erase a = l.dropLast
  | [], _, a, h => by simp at h
  | [x], _, a, h => by
      simp only [List.getLast?_singleton, Option.some.injEq] at h
      subst h
      simp
  | x :: y :: t, hnd, a, h => by
      have hmem : a ∈ y :: t := List.mem_of_getLast?_eq_some (by simpa using h)
      have hx : x ∉ y :: t := (List.nodup_cons.mp hnd).1
      have hxa : x ≠ a := fun he => hx (he ▸ hmem)
      have ih := erase_getLast?_eq_dropLast (y :: t) (List.nodup_cons.mp hnd).2 a
        (by simpa using h)
      rw [List.erase_cons_tail (by simpa using hxa), ih]
      rfl

theorem eraseP_eq_erase_of_find? {α : Type} [DecidableEq α] {p : α → Bool} :
    ∀ {l : List α} {a : α}, l.find? p = some a → l.eraseP p = l.erase a
  | [], a, h => by simp at h
  | x :: t, a, h => by
      cases hp : p x with
      | true =>
          rw [List.find?_cons_of_pos _ hp] at h
          cases h
          rw [List.eraseP_cons_of_pos hp, List.erase_cons_head]
      | false =>
          rw [List.find?_cons_of_neg _ (by simp [hp])] at h
          have hpa : p a = true := List.find?_some h
          have hxa : x ≠ a := fun he => by rw [he, hpa] at hp; cases hp
          rw [List.eraseP_cons_of_neg (by simp [hp]),
            List.erase_cons_tail (by simpa using hxa),
            eraseP_eq_erase_of_find? h]

theorem map_erase_eq_eraseP_map {α : Type} {f : Nat → α} {P : α → Bool} :
    ∀ {l : List Nat} {a : Nat}, a ∈ l → P (f a) = true →
      (∀ x ∈ l, P (f x) = true → x = a) →
      (l.erase a).map f = (l.map f).eraseP P
  | [], a, hmem, _, _ => absurd hmem (by simp)
  | x :: t, a, hmem, hPa, huniq => by
      by_cases hxa : x = a
      · subst hxa
        rw [List.erase_cons_head, List.map_cons, List.eraseP_cons_of_pos hPa]
      · have hPx : P (f x) = false := by
          cases hPx : P (f x) with
          | true => exact absurd (huniq x (by simp) hPx) hxa
          | false => rfl
        have hmem2 : a ∈ t := by
          rcases List.mem_cons.mp hmem with h | h
          · exact absurd h.symm hxa
          · exact h
        rw [List.erase_cons_tail (by simpa using hxa), List.map_cons, List.map_cons,
          List.eraseP_cons_of_neg (by simp [hPx]),
          map_erase_eq_eraseP_map hmem2 hPa (fun x hx hPx => huniq x (by simp [hx]) hPx)]

/-! ### The well-formedness invariant -/

/-- Well-formedness of a cache state, the conjunction of the spec's data
model invariants: the bucket array has `hsize` buckets; `size` counts the
recency list; the multiset of ids chained in the hash table is exactly the
multiset of ids in the recency list (so an entry is reachable from the
hash index iff it is reachable in the recency list, and the counts
agree); ids are unique and below the allocation bound; every chained id
hashes to its bucket; and no two live entries share a key. -/
structure Wf (c : Cache) : Prop where
  ht_len : c.htable.length = c.hsize
  hsize_pos : 0 < c.hsize
  size_eq : c.size = c.dll.length
  perm : (c.htable.flatten).Perm c.dll
  dll_nodup : c.dll.Nodup
  fresh : ∀ id ∈ c.dll, id < c.nextId
  hash_ok : ∀ hv < c.hsize, ∀ id ∈ chainAt c hv, bucketIdx c (c.nodes id).key = hv
  keys_nodup : (cache_keys c).Nodup

theorem bucketIdx_lt (c : Cache) (k : Str) (h : 0 < c.hsize) :
    bucketIdx c k < c.hsize :=
  Nat.mod_lt _ h

theorem chainAt_eq_getElem (c : Cache) (hv : Nat) (h : hv < c.htable.length) :
    chainAt c hv = c.htable[hv] :=
  List.getD_eq_getElem _ _ h

theorem mem_join_of_mem_chain (c : Cache) (hv : Nat) (h : hv < c.htable.length)
    {id : Nat} (hid : id ∈ chainAt c hv) : id ∈ c.htable.flatten := by
  rw [chainAt_eq_getElem c hv h] at hid
  exact List.mem_flatten.mpr ⟨c.htable[hv], List.getElem_mem h, hid⟩

theorem Wf.mem_dll_of_mem_chain {c : Cache} (w : Wf c) {hv : Nat} (h : hv < c.hsize)
    {id : Nat} (hid : id ∈ chainAt c hv) : id ∈ c.dll :=
  w.perm.mem_iff.mp (mem_join_of_mem_chain c hv (w.ht_len ▸ h) hid)

theorem Wf.mem_own_chain {c : Cache} (w : Wf c) {id : Nat} (hid : id ∈ c.dll) :
    id ∈ chainAt c (bucketIdx c (c.nodes id).key) := by
  have hj : id ∈ c.htable.flatten := w.perm.mem_iff.mpr hid
  rcases List.mem_flatten.mp hj with ⟨chain, hchain, hidc⟩
  rcases List.mem_iff_getElem.mp hchain with ⟨hv, hlt, hEq⟩
  have hhv : hv < c.hsize := w.ht_len ▸ hlt
  have hce : chainAt c hv = chain := by rw [chainAt_eq_getElem c hv hlt, hEq]
  have hmem : id ∈ chainAt c hv := hce ▸ hidc
  have hb := w.hash_ok hv hhv id hmem
  rw [hb]
  exact hmem

theorem Wf.join_nodup {c : Cache} (w : Wf c) : c.htable.flatten.Nodup :=
  w.perm.nodup_iff.mpr w.dll_nodup

theorem Wf.chain_nodup {c : Cache} (w : Wf c) (hv : Nat) : (chainAt c hv).Nodup := by
  by_cases h : hv < c.htable.length
  · rw [chainAt_eq_getElem c hv h]
    exact (List.sublist_flatten_of_mem (List.getElem_mem h)).nodup w.join_nodup
  · unfold chainAt
    rw [List.getD_eq_default _ _ (Nat.le_of_not_lt h)]
    exact List.nodup_nil

theorem Wf.key_inj {c : Cache} (w : Wf c) {id id2 : Nat} (h : id ∈ c.dll)
    (h2 : id2 ∈ c.dll) (hk : (c.nodes id).key = (c.nodes id2).key) : id = id2 :=
  List.inj_on_of_nodup_map w.keys_nodup h h2 hk

theorem chain_find_some {c : Cache} {k : Str} {id : Nat}
    (h : chain_find c k = some id) :
    id ∈ chainAt c (bucketIdx c k) ∧ (c.nodes id).key = k := by
  refine ⟨List.mem_of_find?_eq_some h, ?_⟩
  have hp := List.find?_some h
  simpa using hp

theorem Wf.chain_find_mem_dll {c : Cache} (w : Wf c) {k : Str} {id : Nat}
    (h : chain_find c k = some id) : id ∈ c.dll :=
  w.mem_dll_of_mem_chain (bucketIdx_lt c k w.hsize_pos) (chain_find_some h).1

theorem Wf.chain_find_none_iff {c : Cache} (w : Wf c) {k : Str} :
    chain_find c k = none ↔ k ∉ cache_keys c := by
  constructor
  · intro h hk
    rcases List.mem_map.mp hk with ⟨id, hid, hkey⟩
    have hchain : id ∈ chainAt c (bucketIdx c (c.nodes id).key) := w.mem_own_chain hid
    rw [hkey] at hchain
    have hall : ∀ x ∈ chainAt c (bucketIdx c k), ¬ (decide ((c.nodes x).key = k) = true) := by
      simpa [chain_find] using h
    exact hall id hchain (by simp [hkey])
  · intro hk
    cases hfind : chain_find c k with
    | none => rfl
    | some id =>
        exact absurd (List.mem_map.mpr ⟨id, w.chain_find_mem_dll hfind,
          (chain_find_some hfind).2⟩) hk

/-! ### Preservation of well-formedness -/

theorem getD_set_self_nil (L : List (List Nat)) (i : Nat) (x : List Nat)
    (h : i < L.length) : (L.set i x).getD i [] = x := by
  rw [List.getD_eq_getElem _ _ (by simpa using h)]
  exact List.getElem_set_self (by simpa using h)

theorem getD_set_ne_nil (L : List (List Nat)) (i j : Nat) (x : List Nat)
    (h : i ≠ j) : (L.set i x).getD j [] = L.getD j [] := by
  rw [List.getD_eq_getElem?_getD, List.getD_eq_getElem?_getD,
    List.getElem?_set_ne h]

theorem flatten_replicate_nil {α : Type} : ∀ n : Nat, (List.replicate n ([] : List α)).flatten = []
  | 0 => rfl
  | n + 1 => by simp [flatten_replicate_nil n]

/-- A freshly created cache is well-formed. -/
theorem wf_create {ok : Bool} {cap : Nat} {c : Cache}
    (h : cache_create ok cap = some c) : Wf c := by
  unfold cache_create at h
  split at h
  · exact absurd h (by simp)
  · split at h
    · cases h
      refine ⟨by simp, Nat.succ_pos _, rfl, ?_, by simp [List.Nodup], by simp, ?_, by simp [cache_keys]⟩
      · rw [flatten_replicate_nil]
      · intro hv _ id hid
        unfold chainAt at hid
        rcases Nat.lt_or_ge hv (cap * 2 + 1) with hlt | hge
        · rw [List.getD_eq_getElem _ _ (by simpa using hlt)] at hid
          simp at hid
        · rw [List.getD_eq_default _ _ (by simpa using hge)] at hid
          simp at hid
    · exact absurd h (by simp)

/-- Replacing the arena function by one with identical keys preserves
well-formedness. -/
theorem wf_nodes_congr {c : Cache} (w : Wf c) (f : Nat → Node)
    (hf : ∀ j, (f j).key = (c.nodes j).key) : Wf { c with nodes := f } := by
  refine ⟨w.ht_len, w.hsize_pos, w.size_eq, w.perm, w.dll_nodup, w.fresh, ?_, ?_⟩
  · intro hv hhv id hid
    show bucketIdx c (f id).key = hv
    rw [show bucketIdx c (f id).key = bucketIdx c (c.nodes id).key by rw [hf]]
    exact w.hash_ok hv hhv id hid
  · show (c.dll.map fun id => (f id).key).Nodup
    rw [List.map_congr_left fun id _ => hf id]
    exact w.keys_nodup

/-- Promoting a live node to the recency head preserves well-formedness. -/
theorem wf_move_to_front {c : Cache} (w : Wf c) {id : Nat} (hid : id ∈ c.dll) :
    Wf (move_to_front c id) := by
  have hperm : c.dll.Perm (id :: c.dll.erase id) := List.perm_cons_erase hid
  refine ⟨w.ht_len, w.hsize_pos, ?_, ?_, ?_, ?_, w.hash_ok, ?_⟩
  · show c.size = (id :: c.dll.erase id).length
    rw [w.size_eq]
    exact hperm.length_eq
  · exact w.perm.trans hperm
  · exact hperm.nodup_iff.mp w.dll_nodup
  · intro j hj
    exact w.fresh j (hperm.mem_iff.mpr hj)
  · show ((id :: c.dll.erase id).map fun j => (c.nodes j).key).Nodup
    exact ((hperm.map _).nodup_iff).mp w.keys_nodup

/-- The entries after a promotion: the promoted pair moves to the head. -/
theorem entries_move_to_front {c : Cache} (w : Wf c) {id : Nat} (hid : id ∈ c.dll) :
    entries (move_to_front c id) =
      ((c.nodes id).key, (c.nodes id).value) ::
        (entries c).eraseP fun p => decide (p.1 = (c.nodes id).key) := by
  show ((id :: c.dll.erase id).map fun j => ((c.nodes j).key, (c.nodes j).value)) = _
  rw [List.map_cons]
  congr 1
  exact map_erase_eq_eraseP_map hid (by simp)
    (fun x hx hPx => w.key_inj hx hid (by simpa using hPx))

theorem cache_keys_eq_map_fst (c : Cache) :
    cache_keys c = (entries c).map Prod.fst := by
  unfold cache_keys entries
  rw [List.map_map]
  rfl

theorem put_update_eq (c : Cache) (id : Nat) (v : Str) :
    put_update c id v =
      move_to_front { c with nodes := Function.update c.nodes id ⟨(c.nodes id).key, v⟩ } id := rfl

theorem update_value_keeps_key (c : Cache) (id : Nat) (v : Str) (j : Nat) :
    ((Function.update c.nodes id ⟨(c.nodes id).key, v⟩) j).key = (c.nodes j).key := by
  rcases eq_or_ne j id with h | h
  · subst h
    simp
  · rw [Function.update_noteq h]

/-- The value write of the upsert path preserves well-formedness. -/
theorem wf_put_update {c : Cache} (w : Wf c) {id : Nat} (hid : id ∈ c.dll) (v : Str) :
    Wf (put_update c id v) := by
  rw [put_update_eq]
  exact wf_move_to_front (wf_nodes_congr w _ (update_value_keeps_key c id v)) hid

/-- The entries after an upsert: the key's pair, now carrying the new
value, moves to the head; everything else is untouched. -/
theorem entries_put_update {c : Cache} (w : Wf c) {id : Nat} (hid : id ∈ c.dll)
    (v : Str) :
    entries (put_update c id v) =
      ((c.nodes id).key, v) ::
        (entries c).eraseP fun p => decide (p.1 = (c.nodes id).key) := by
  have hupd : ∀ j ∈ c.dll.erase id,
      (Function.update c.nodes id ⟨(c.nodes id).key, v⟩) j = c.nodes j := by
    intro j hj
    have hne : j ≠ id := (w.dll_nodup.mem_erase_iff.mp hj).1
    exact Function.update_noteq hne _ _
  show ((id :: c.dll.erase id).map fun j =>
      (((Function.update c.nodes id ⟨(c.nodes id).key, v⟩) j).key,
       ((Function.update c.nodes id ⟨(c.nodes id).key, v⟩) j).value)) = _
  rw [List.map_cons]
  congr 1
  · simp
  · rw [List.map_congr_left fun j hj => by rw [hupd j hj]]
    exact map_erase_eq_eraseP_map hid (by simp)
      (fun x hx hPx => w.key_inj hx hid (by simpa using hPx))

theorem put_insert_eq (c : Cache) (k v : Str) :
    put_insert c k v =
      { c with nodes := Function.update c.nodes c.nextId ⟨k, v⟩
               nextId := c.nextId + 1
               htable := c.htable.set (bucketIdx c k)
                 (c.nextId :: chainAt c (bucketIdx c k))
               dll := c.nextId :: c.dll
               size := c.size + 1 } := by
  unfold put_insert htable_insert dll_push_head
  simp only [Function.update_same]
  rfl

/-- Inserting a fresh node for an absent key preserves well-formedness. -/
theorem wf_put_insert {c : Cache} (w : Wf c) {k : Str} (v : Str)
    (hnone : chain_find c k = none) : Wf (put_insert c k v) := by
  have hknot : k ∉ cache_keys c := w.chain_find_none_iff.mp hnone
  have hfreshmem : c.nextId ∉ c.dll := fun h => absurd (w.fresh _ h) (lt_irrefl _)
  have hb : bucketIdx c k < c.htable.length := w.ht_len ▸ bucketIdx_lt c k w.hsize_pos
  rw [put_insert_eq]
  refine ⟨?_, w.hsize_pos, ?_, ?_, ?_, ?_, ?_, ?_⟩
  · simpa using w.ht_len
  · show c.size + 1 = (c.nextId :: c.dll).length
    simp [w.size_eq]
  · exact (join_set_cons_perm c.nextId c.htable (bucketIdx c k) hb).trans
      (w.perm.cons c.nextId)
  · exact List.nodup_cons.mpr ⟨hfreshmem, w.dll_nodup⟩
  · intro j hj
    rcases List.mem_cons.mp hj with h | h
    · subst h
      exact Nat.lt_succ_self _
    · exact Nat.lt_succ_of_lt (w.fresh j h)
  · intro hv hhv j hj
    have hchain : chainAt { c with
        nodes := Function.update c.nodes c.nextId ⟨k, v⟩
        nextId := c.nextId + 1
        htable := c.htable.set (bucketIdx c k)
          (c.nextId :: chainAt c (bucketIdx c k))
        dll := c.nextId :: c.dll
        size := c.size + 1 } hv =
        (c.htable.set (bucketIdx c k) (c.nextId :: chainAt c (bucketIdx c k))).getD hv [] := rfl
    rcases eq_or_ne (bucketIdx c k) hv with hEq | hne
    · rw [hchain, ← hEq, getD_set_self_nil c.htable _ _ hb] at hj
      subst hEq
      rcases List.mem_cons.mp hj with h | h
      · subst h
        show bucketIdx c (Function.update c.nodes c.nextId ⟨k, v⟩ c.nextId).key = _
        rw [Function.update_same]
      · have hjd : j ∈ c.dll := w.mem_dll_of_mem_chain hhv h
        have hjne : j ≠ c.nextId := fun he => absurd (he ▸ w.fresh j hjd) (lt_irrefl _)
        show bucketIdx c (Function.update c.nodes c.nextId ⟨k, v⟩ j).key = _
        rw [Function.update_noteq hjne]
        exact w.hash_ok _ hhv j h
    · rw [hchain, getD_set_ne_nil c.htable _ _ _ hne] at hj
      have hjd : j ∈ c.dll := w.mem_dll_of_mem_chain hhv hj
      have hjne : j ≠ c.nextId := fun he => absurd (he ▸ w.fresh j hjd) (lt_irrefl _)
      show bucketIdx c (Function.update c.nodes c.nextId ⟨k, v⟩ j).key = _
      rw [Function.update_noteq hjne]
      exact w.hash_ok _ hhv j hj
  · show ((c.nextId :: c.dll).map fun j =>
        (Function.update c.nodes c.nextId ⟨k, v⟩ j).key).Nodup
    rw [List.map_cons, Function.update_same]
    refine List.nodup_cons.mpr ⟨?_, ?_⟩
    · rw [List.map_congr_left fun j hj => by
        rw [Function.update_noteq
          (fun he => absurd (he ▸ w.fresh j hj) (lt_irrefl _))]]
      exact hknot
    · rw [List.map_congr_left fun j hj => by
        rw [Function.update_noteq
          (fun he => absurd (he ▸ w.fresh j hj) (lt_irrefl _))]]
      exact w.keys_nodup

/-- The entries after inserting a fresh node: the new pair at the head. -/
theorem entries_put_insert {c : Cache} (w : Wf c) (k v : Str) :
    entries (put_insert c k v) = (k, v) :: entries c := by
  rw [put_insert_eq]
  show ((c.nextId :: c.dll).map fun j =>
      ((Function.update c.nodes c.nextId ⟨k, v⟩ j).key,
       (Function.update c.nodes c.nextId ⟨k, v⟩ j).value)) = _
  rw [List.map_cons, Function.update_same]
  congr 1
  exact List.map_congr_left fun j hj => by
    rw [Function.update_noteq (fun he => absurd (he ▸ w.fresh j hj) (lt_irrefl _))]

/-- The combined effect, on all fields, of unlinking a live node from
both the recency list and its hash chain and decrementing `size` — the
common core of LRU eviction and `cache_delete`. -/
def remove_node (c : Cache) (id : Nat) : Cache :=
  { c with htable := c.htable.set (bucketIdx c (c.nodes id).key)
             ((chainAt c (bucketIdx c (c.nodes id).key)).erase id)
           dll := c.dll.erase id
           size := c.size - 1 }

theorem evict_tail_eq_remove {c : Cache} {ev : Nat}
    (h : c.dll.getLast? = some ev) : evict_tail c = remove_node c ev := by
  unfold evict_tail
  rw [h]
  rfl

theorem wf_remove_node {c : Cache} (w : Wf c) {id : Nat} (hid : id ∈ c.dll) :
    Wf (remove_node c id) := by
  have hhv : bucketIdx c (c.nodes id).key < c.hsize :=
    bucketIdx_lt c _ w.hsize_pos
  have hb : bucketIdx c (c.nodes id).key < c.htable.length := w.ht_len ▸ hhv
  have hchain : id ∈ chainAt c (bucketIdx c (c.nodes id).key) := w.mem_own_chain hid
  refine ⟨?_, w.hsize_pos, ?_, ?_, ?_, ?_, ?_, ?_⟩
  · show (c.htable.set (bucketIdx c (c.nodes id).key)
      ((chainAt c (bucketIdx c (c.nodes id).key)).erase id)).length = c.hsize
    simpa using w.ht_len
  · show c.size - 1 = (c.dll.erase id).length
    rw [w.size_eq, List.length_erase_of_mem hid]
  · have hj := join_set_erase_perm id c.htable _ hb hchain
    have hd : c.dll.Perm (id :: c.dll.erase id) := List.perm_cons_erase hid
    exact (hj.trans (w.perm.trans hd)).cons_inv
  · exact w.dll_nodup.erase id
  · intro j hj
    exact w.fresh j (List.mem_of_mem_erase hj)
  · intro hv hhv2 j hj
    have hcc : chainAt (remove_node c id) hv =
        (c.htable.set (bucketIdx c (c.nodes id).key)
          ((chainAt c (bucketIdx c (c.nodes id).key)).erase id)).getD hv [] := rfl
    rcases eq_or_ne (bucketIdx c (c.nodes id).key) hv with hEq | hne
    · rw [hcc, ← hEq, getD_set_self_nil c.htable _ _ hb] at hj
      have hjc : j ∈ chainAt c (bucketIdx c (c.nodes id).key) :=
        List.mem_of_mem_erase hj
      show bucketIdx c (c.nodes j).key = hv
      rw [← hEq]
      exact w.hash_ok _ hhv j hjc
    · rw [hcc, getD_set_ne_nil c.htable _ _ _ hne] at hj
      exact w.hash_ok hv hhv2 j hj
  · show ((c.dll.erase id).map fun j => (c.nodes j).key).Nodup
    exact (List.Sublist.map _ (List.erase_sublist id c.dll)).nodup w.keys_nodup

theorem entries_remove_node {c : Cache} (w : Wf c) {id : Nat} (hid : id ∈ c.dll) :
    entries (remove_node c id) =
      (entries c).eraseP fun p => decide (p.1 = (c.nodes id).key) := by
  show ((c.dll.erase id).map fun j => ((c.nodes j).key, (c.nodes j).value)) = _
  exact map_erase_eq_eraseP_map hid (by simp)
    (fun x hx hPx => w.key_inj hx hid (by simpa using hPx))

theorem wf_evict_tail {c : Cache} (w : Wf c) : Wf (evict_tail c) := by
  cases hl : c.dll.getLast? with
  | none =>
      unfold evict_tail
      rw [hl]
      exact w
  | some ev =>
      rw [evict_tail_eq_remove hl]
      exact wf_remove_node w (List.mem_of_getLast?_eq_some hl)

/-- Eviction on a well-formed, non-empty cache drops exactly the last
(least recently used) entry. -/
theorem entries_evict_tail {c : Cache} (w : Wf c) (hne : c.dll ≠ []) :
    entries (evict_tail c) = (entries c).dropLast := by
  cases hl : c.dll.getLast? with
  | none => exact absurd hl (by simpa using hne)
  | some ev =>
      rw [evict_tail_eq_remove hl]
      have hev : ev ∈ c.dll := List.mem_of_getLast?_eq_some hl
      have herase : c.dll.erase ev = c.dll.dropLast :=
        erase_getLast?_eq_dropLast c.dll w.dll_nodup ev hl
      show ((c.dll.erase ev).map fun j => ((c.nodes j).key, (c.nodes j).value)) = _
      rw [herase]
      exact List.map_dropLast _ _

/-! ### Characterizations of the public operations -/

theorem cache_put_allocFail (c : Cache) (key value : Str) :
    cache_put false c key value = (c, -1) := by
  unfold cache_put
  cases chain_find c key <;> simp

theorem cache_put_upsert_eq {c : Cache} {k : Str} {id : Nat} (v : Str)
    (hfind : chain_find c k = some id) :
    cache_put true c k v = (put_update c id v, 0) := by
  simp [cache_put, hfind]

theorem cache_put_insert_eq {c : Cache} {k : Str} (v : Str)
    (hnone : chain_find c k = none) :
    cache_put true c k v =
      if c.capacity < c.size + 1 then (evict_tail (put_insert c k v), 0)
      else (put_insert c k v, 0) := by
  simp only [cache_put, hnone, put_insert_capacity, put_insert_size, if_true]

theorem cache_get_hit {c : Cache} {k : Str} {id : Nat}
    (hfind : chain_find c k = some id) :
    cache_get c k = (move_to_front c id, some ((c.nodes id).value)) := by
  simp [cache_get, cache_get_lookup, cache_get_promote, hfind]

theorem cache_get_miss {c : Cache} {k : Str} (hnone : chain_find c k = none) :
    cache_get c k = (c, none) := by
  simp [cache_get, cache_get_lookup, hnone]

theorem cache_delete_eq_remove {c : Cache} {k : Str} {id : Nat}
    (hfind : chain_find c k = some id) :
    cache_delete c k = (remove_node c id, 0) := by
  have hkey : (c.nodes id).key = k := (chain_find_some hfind).2
  have herase : (chainAt c (bucketIdx c k)).eraseP
      (fun j => decide ((c.nodes j).key = k)) = (chainAt c (bucketIdx c k)).erase id :=
    eraseP_eq_erase_of_find? hfind
  simp only [cache_delete, hfind, remove_node]
  rw [hkey, herase]
  rfl

theorem cache_delete_miss {c : Cache} {k : Str} (hnone : chain_find c k = none) :
    cache_delete c k = (c, 1) := by
  simp [cache_delete, hnone]

/-! ### Well-formedness is preserved by every public operation -/

theorem wf_cache_put (ok : Bool) {c : Cache} (w : Wf c) (k v : Str) :
    Wf (cache_put ok c k v).1 := by
  cases ok with
  | false =>
      rw [cache_put_allocFail]
      exact w
  | true =>
      cases hfind : chain_find c k with
      | some id =>
          rw [cache_put_upsert_eq v hfind]
          exact wf_put_update w (w.chain_find_mem_dll hfind) v
      | none =>
          rw [cache_put_insert_eq v hfind]
          split
          · exact wf_evict_tail (wf_put_insert w v hfind)
          · exact wf_put_insert w v hfind

theorem wf_cache_get {c : Cache} (w : Wf c) (k : Str) :
    Wf (cache_get c k).1 := by
  cases hfind : chain_find c k with
  | some id =>
      rw [cache_get_hit hfind]
      exact wf_move_to_front w (w.chain_find_mem_dll hfind)
  | none =>
      rw [cache_get_miss hfind]
      exact w

theorem wf_cache_delete {c : Cache} (w : Wf c) (k : Str) :
    Wf (cache_delete c k).1 := by
  cases hfind : chain_find c k with
  | some id =>
      rw [cache_delete_eq_remove hfind]
      exact wf_remove_node w (w.chain_find_mem_dll hfind)
  | none =>
      rw [cache_delete_miss hfind]
      exact w

theorem wf_applyOp {c : Cache} (w : Wf c) (op : Op) : Wf (applyOp c op) := by
  cases op with
  | put ok k v => exact wf_cache_put ok w k v
  | get k => exact wf_cache_get w k
  | del k => exact wf_cache_delete w k

theorem wf_runOps {c : Cache} (w : Wf c) (ops : List Op) : Wf (runOps c ops) := by
  induction ops generalizing c with
  | nil => exact w
  | cons op ops ih => exact ih (wf_applyOp w op)

/-! ### Entry-level facts -/

theorem create_spec {ok : Bool} {cap : Nat} {c : Cache}
    (h : cache_create ok cap = some c) :
    c.capacity = cap ∧ c.size = 0 ∧ c.dll = [] ∧ cap ≠ 0 := by
  unfold cache_create at h
  split at h
  · exact absurd h (by simp)
  · split at h
    · cases h
      refine ⟨rfl, rfl, rfl, by assumption⟩
    · exact absurd h (by simp)

theorem chain_find_of_mem_entries {c : Cache} (w : Wf c) {k v : Str}
    (h : (k, v) ∈ entries c) :
    ∃ id, chain_find c k = some id ∧ id ∈ c.dll ∧
      (c.nodes id).key = k ∧ (c.nodes id).value = v := by
  rcases List.mem_map.mp h with ⟨id0, hid0, hpair⟩
  have hk0 : (c.nodes id0).key = k := congrArg Prod.fst hpair
  have hv0 : (c.nodes id0).value = v := congrArg Prod.snd hpair
  have hkeys : k ∈ cache_keys c := List.mem_map.mpr ⟨id0, hid0, hk0⟩
  cases hfind : chain_find c k with
  | none => exact absurd hkeys (w.chain_find_none_iff.mp hfind)
  | some id =>
      have hid : id ∈ c.dll := w.chain_find_mem_dll hfind
      have hk : (c.nodes id).key = k := (chain_find_some hfind).2
      have : id = id0 := w.key_inj hid hid0 (hk.trans hk0.symm)
      subst this
      exact ⟨id, rfl, hid, hk, hv0⟩

/-- A `get` of a stored pair returns the stored value. -/
theorem cache_get_value {c : Cache} (w : Wf c) {k v : Str}
    (h : (k, v) ∈ entries c) : (cache_get c k).2 = some v := by
  rcases chain_find_of_mem_entries w h with ⟨id, hfind, _, _, hv⟩
  rw [cache_get_hit hfind]
  simpa using hv

theorem cache_keys_remove_not_mem {c : Cache} (w : Wf c) {id : Nat}
    (hid : id ∈ c.dll) : (c.nodes id).key ∉ cache_keys (remove_node c id) := by
  intro hk
  rcases List.mem_map.mp hk with ⟨j, hj, hkey⟩
  have hjd : j ∈ c.dll := List.mem_of_mem_erase hj
  have hne : j ≠ id := (w.dll_nodup.mem_erase_iff.mp hj).1
  exact hne (w.key_inj hjd hid hkey)

/-! ### Claim theorems (second batch) -/

/-- Claim C3: on a present key, `cache_get` returns the stored value and
moves the entry to the head of the recency order (most recently used, so
last in line for eviction); on an absent key it returns `NULL` and leaves
the cache untouched. -/
theorem getReturnsValueAndPromotes (c : Cache) (w : Wf c) (k v : Str) :
    ((k, v) ∈ entries c →
      (cache_get c k).2 = some v ∧
      entries (cache_get c k).1 =
        (k, v) :: (entries c).eraseP fun p => decide (p.1 = k)) ∧
    (k ∉ cache_keys c → cache_get c k = (c, none)) := by
  constructor
  · intro h
    rcases chain_find_of_mem_entries w h with ⟨id, hfind, hid, hk, hv⟩
    refine ⟨?_, ?_⟩
    · rw [cache_get_hit hfind]
      simpa using hv
    · rw [cache_get_hit hfind]
      show entries (move_to_front c id) = _
      rw [entries_move_to_front w hid, hk, hv]
  · intro h
    exact cache_get_miss (w.chain_find_none_iff.mpr h)

/-- Claim C4: `put` on a present key overwrites its value, promotes the
entry to the recency head, returns success, and leaves `size` (and the
number of entries) unchanged — no eviction. -/
theorem putUpsertNoEviction (c : Cache) (w : Wf c) (k v0 v : Str)
    (h : (k, v0) ∈ entries c) :
    (cache_put true c k v).2 = 0 ∧
    (cache_put true c k v).1.size = c.size ∧
    entries (cache_put true c k v).1 =
      (k, v) :: (entries c).eraseP (fun p => decide (p.1 = k)) ∧
    (cache_put true c k v).1.dll.length = c.dll.length := by
  rcases chain_find_of_mem_entries w h with ⟨id, hfind, hid, hk, _⟩
  rw [cache_put_upsert_eq v hfind]
  refine ⟨rfl, rfl, ?_, ?_⟩
  · show entries (put_update c id v) = _
    rw [entries_put_update w hid, hk]
  · show (id :: c.dll.erase id).length = c.dll.length
    exact (List.perm_cons_erase hid).symm.length_eq

/-- Claim C7: `delete` on a present key unlinks the entry from the hash
index and the recency list, decrements `size` and returns `0`; afterwards
`get` of that key misses.  On an absent key it returns `1` — a value
distinct from success (`0`) and from the invalid-argument error (`-1`) —
and mutates nothing. -/
theorem deleteRemovesOrReportsNotFound (c : Cache) (w : Wf c) (k : Str) :
    (k ∈ cache_keys c →
      (cache_delete c k).2 = 0 ∧
      (cache_delete c k).1.size = c.size - 1 ∧
      entries (cache_delete c k).1 =
        (entries c).eraseP (fun p => decide (p.1 = k)) ∧
      chain_find (cache_delete c k).1 k = none ∧
      (cache_get (cache_delete c k).1 k).2 = none) ∧
    (k ∉ cache_keys c → cache_delete c k = (c, 1)) ∧
    cache_delete_checked none (some k) = (none, -1) ∧
    ((1 : Int) ≠ 0 ∧ (1 : Int) ≠ -1) := by
  refine ⟨?_, ?_, rfl, by decide, by decide⟩
  · intro h
    have hfind : ∃ id, chain_find c k = some id := by
      cases hfind : chain_find c k with
      | none => exact absurd h (w.chain_find_none_iff.mp hfind)
      | some id => exact ⟨id, rfl⟩
    rcases hfind with ⟨id, hfind⟩
    have hid : id ∈ c.dll := w.chain_find_mem_dll hfind
    have hk : (c.nodes id).key = k := (chain_find_some hfind).2
    rw [cache_delete_eq_remove hfind]
    have hwr : Wf (remove_node c id) := wf_remove_node w hid
    have hknot : k ∉ cache_keys (remove_node c id) := by
      have := cache_keys_remove_not_mem w hid
      rwa [hk] at this
    have hnone : chain_find (remove_node c id) k = none :=
      hwr.chain_find_none_iff.mpr hknot
    refine ⟨rfl, rfl, ?_, hnone, ?_⟩
    · show entries (remove_node c id) = _
      rw [entries_remove_node w hid, hk]
    · rw [cache_get_miss hnone]
  · intro h
    exact cache_delete_miss (w.chain_find_none_iff.mpr h)

/-- Claim C9: after any sequence of public operations on a created cache,
an id is reachable through some hash bucket iff it is on the recency
list, keys are pairwise distinct, and `size` equals both the recency-list
length and the total number of ids chained in the hash table. -/
theorem reachabilityBijectionAndCounts (ok : Bool) (cap : Nat) (c0 : Cache)
    (h : cache_create ok cap = some c0) (ops : List Op) :
    (∀ id, (∃ hv, hv < (runOps c0 ops).hsize ∧ id ∈ chainAt (runOps c0 ops) hv) ↔
      id ∈ (runOps c0 ops).dll) ∧
    (cache_keys (runOps c0 ops)).Nodup ∧
    (runOps c0 ops).size = (runOps c0 ops).dll.length ∧
    (runOps c0 ops).size = (runOps c0 ops).htable.flatten.length := by
  have w : Wf (runOps c0 ops) := wf_runOps (wf_create h) ops
  refine ⟨?_, w.keys_nodup, w.size_eq, ?_⟩
  · intro id
    constructor
    · rintro ⟨hv, hhv, hid⟩
      exact w.mem_dll_of_mem_chain hhv hid
    · intro hid
      exact ⟨bucketIdx (runOps c0 ops) ((runOps c0 ops).nodes id).key,
        bucketIdx_lt _ _ w.hsize_pos, w.mem_own_chain hid⟩
  · rw [w.perm.length_eq, w.size_eq]

/-! ### Concrete caches and witnesses for the second batch -/

/-- `cache2` after `put([1], [10])`. -/
def putCacheA : Cache := (cache_put true cache2 [1] [10]).1

theorem wf_cache2 : Wf cache2 :=
  wf_create (show cache_create true 2 = some cache2 from rfl)

theorem wf_putCacheA : Wf putCacheA := wf_cache_put true wf_cache2 [1] [10]

/-- Concrete instance of C3: `putCacheA` holds `([1], [10])`; `get [1]`
returns `[10]` and promotes; `get [9]` misses and mutates nothing. -/
theorem getReturnsValueAndPromotes_witness :
    (([1], [10]) ∈ entries putCacheA ∧
      (cache_get putCacheA [1]).2 = some [10] ∧
      entries (cache_get putCacheA [1]).1 =
        ([1], [10]) :: (entries putCacheA).eraseP fun p => decide (p.1 = [1])) ∧
    ([9] ∉ cache_keys putCacheA ∧ cache_get putCacheA [9] = (putCacheA, none)) :=
  ⟨⟨by decide,
    (getReturnsValueAndPromotes putCacheA wf_putCacheA [1] [10]).1 (by decide)⟩,
   ⟨by decide,
    (getReturnsValueAndPromotes putCacheA wf_putCacheA [9] []).2 (by decide)⟩⟩

/-- Concrete instance of C4: upserting key `[1]` in `putCacheA`. -/
theorem putUpsertNoEviction_witness :
    ([1], [10]) ∈ entries putCacheA ∧
    (cache_put true putCacheA [1] [20]).2 = 0 ∧
    (cache_put true putCacheA [1] [20]).1.size = putCacheA.size ∧
    entries (cache_put true putCacheA [1] [20]).1 =
      ([1], [20]) :: (entries putCacheA).eraseP (fun p => decide (p.1 = [1])) ∧
    (cache_put true putCacheA [1] [20]).1.dll.length = putCacheA.dll.length :=
  ⟨by decide, putUpsertNoEviction putCacheA wf_putCacheA [1] [10] [20] (by decide)⟩

/-- Concrete instance of C7: deleting the present key `[1]` and the
absent key `[9]` of `putCacheA`. -/
theorem deleteRemovesOrReportsNotFound_witness :
    ([1] ∈ cache_keys putCacheA ∧
      (cache_delete putCacheA [1]).2 = 0 ∧
      (cache_delete putCacheA [1]).1.size = putCacheA.size - 1 ∧
      entries (cache_delete putCacheA [1]).1 =
        (entries putCacheA).eraseP (fun p => decide (p.1 = [1])) ∧
      chain_find (cache_delete putCacheA [1]).1 [1] = none ∧
      (cache_get (cache_delete putCacheA [1]).1 [1]).2 = none) ∧
    ([9] ∉ cache_keys putCacheA ∧ cache_delete putCacheA [9] = (putCacheA, 1)) :=
  ⟨⟨by decide,
    (deleteRemovesOrReportsNotFound putCacheA wf_putCacheA [1]).1 (by decide)⟩,
   ⟨by decide,
    (deleteRemovesOrReportsNotFound putCacheA wf_putCacheA [9]).2.1 (by decide)⟩⟩

/-- Concrete instance of C9: capacity 2, a put, a get and a delete. -/
theorem reachabilityBijectionAndCounts_witness :
    cache_create true 2 = some cache2 ∧
    ((∀ id, (∃ hv, hv < (runOps cache2 [Op.put true [1] [10], Op.get [1], Op.del [1]]).hsize ∧
        id ∈ chainAt (runOps cache2 [Op.put true [1] [10], Op.get [1], Op.del [1]]) hv) ↔
      id ∈ (runOps cache2 [Op.put true [1] [10], Op.get [1], Op.del [1]]).dll) ∧
    (cache_keys (runOps cache2 [Op.put true [1] [10], Op.get [1], Op.del [1]])).Nodup ∧
    (runOps cache2 [Op.put true [1] [10], Op.get [1], Op.del [1]]).size =
      (runOps cache2 [Op.put true [1] [10], Op.get [1], Op.del [1]]).dll.length ∧
    (runOps cache2 [Op.put true [1] [10], Op.get [1], Op.del [1]]).size =
      (runOps cache2 [Op.put true [1] [10], Op.get [1], Op.del [1]]).htable.flatten.length) :=
  ⟨rfl, reachabilityBijectionAndCounts true 2 cache2 rfl
    [Op.put true [1] [10], Op.get [1], Op.del [1]]⟩

/-! ### Filling a cache with distinct fresh keys (for the LRU order claim) -/

/-- Fold a sequence of successful `put` calls of key–value pairs. -/
def putEach (c : Cache) (ps : List (Str × Str)) : Cache :=
  ps.foldl (fun c p => (cache_put true c p.1 p.2).1) c

theorem putEach_cons (c : Cache) (p : Str × Str) (ps : List (Str × Str)) :
    putEach c (p :: ps) = putEach (cache_put true c p.1 p.2).1 ps := rfl

theorem putEach_append (c : Cache) (ps qs : List (Str × Str)) :
    putEach c (ps ++ qs) = putEach (putEach c ps) qs := by
  unfold putEach
  rw [List.foldl_append]

/-- Putting a list of distinct keys, all absent, while staying within
capacity: every `put` takes the insert path, no eviction happens, and the
entries end up in reverse insertion order (most recent first). -/
theorem putEach_fill :
    ∀ (ps : List (Str × Str)) (c : Cache), Wf c →
      (∀ p ∈ ps, p.1 ∉ cache_keys c) → (ps.map Prod.fst).Nodup →
      c.size + ps.length ≤ c.capacity →
      Wf (putEach c ps) ∧ entries (putEach c ps) = ps.reverse ++ entries c ∧
      (putEach c ps).size = c.size + ps.length ∧
      (putEach c ps).capacity = c.capacity
  | [], c, w, _, _, _ => ⟨w, by simp [putEach], by simp [putEach], rfl⟩
  | p :: ps, c, w, hdisj, hnd, hle => by
      simp only [List.length_cons] at hle
      have hnone : chain_find c p.1 = none :=
        w.chain_find_none_iff.mpr (hdisj p (List.mem_cons_self p ps))
      have hput1 : (cache_put true c p.1 p.2).1 = put_insert c p.1 p.2 := by
        rw [cache_put_insert_eq p.2 hnone, if_neg (by omega)]
      have w1 : Wf (put_insert c p.1 p.2) := wf_put_insert w p.2 hnone
      have he1 : entries (put_insert c p.1 p.2) = (p.1, p.2) :: entries c :=
        entries_put_insert w p.1 p.2
      have hkeys1 : cache_keys (put_insert c p.1 p.2) = p.1 :: cache_keys c := by
        rw [cache_keys_eq_map_fst, he1, List.map_cons, ← cache_keys_eq_map_fst]
      have hndc : p.1 ∉ ps.map Prod.fst ∧ (ps.map Prod.fst).Nodup :=
        List.nodup_cons.mp (by simpa using hnd)
      have hdisj1 : ∀ q ∈ ps, q.1 ∉ cache_keys (put_insert c p.1 p.2) := by
        intro q hq hmem
        rw [hkeys1] at hmem
        rcases List.mem_cons.mp hmem with hEq | hmem2
        · exact hndc.1 (hEq ▸ List.mem_map_of_mem Prod.fst hq)
        · exact hdisj q (List.mem_cons_of_mem p hq) hmem2
      have hle1 : (put_insert c p.1 p.2).size + ps.length ≤
          (put_insert c p.1 p.2).capacity := by
        simp only [put_insert_size, put_insert_capacity]
        omega
      have ih := putEach_fill ps (put_insert c p.1 p.2) w1 hdisj1 hndc.2 hle1
      rw [putEach_cons, hput1]
      refine ⟨ih.1, ?_, ?_, ?_⟩
      · rw [ih.2.1, he1]
        simp
      · rw [ih.2.2.1, put_insert_size]
        simp only [List.length_cons]
        omega
      · rw [ih.2.2.2, put_insert_capacity]

/-- Claim C2: filling a cache of capacity `N` with `N + 1` distinct keys
(no intervening accesses) evicts exactly the first-inserted key:
afterwards `get` of the first key misses and `get` of every later key
returns its stored value. -/
theorem lruEvictsExactlyFirstInserted (cap : Nat) (c0 : Cache)
    (hc : cache_create true cap = some c0) (ps : List (Str × Str))
    (hlen : ps.length = cap + 1) (hnd : (ps.map Prod.fst).Nodup) :
    (cache_get (putEach c0 ps) (ps.headD ([], [])).1).2 = none ∧
    ∀ p ∈ ps.tail, (cache_get (putEach c0 ps) p.1).2 = some p.2 := by
  obtain ⟨hcap0, hsize0, hdll0, hcapne⟩ := create_spec hc
  have he0 : entries c0 = [] := by
    unfold entries
    rw [hdll0]
    rfl
  have hkeys0 : cache_keys c0 = [] := by
    unfold cache_keys
    rw [hdll0]
    rfl
  cases ps with
  | nil => exact absurd hlen (by simp)
  | cons p0 rest =>
  simp only [List.length_cons] at hlen
  have hrestlen : rest.length = cap := by omega
  have hrestne : rest ≠ [] := by
    intro h
    rw [h] at hrestlen
    exact hcapne hrestlen.symm
  obtain ⟨mid, pN, hdecomp⟩ : ∃ mid pN, rest = mid ++ [pN] :=
    ⟨rest.dropLast, rest.getLast hrestne, (List.dropLast_append_getLast hrestne).symm⟩
  subst hdecomp
  have hmidlen : mid.length + 1 = cap := by simpa using hrestlen
  -- decompose the distinctness hypothesis
  have hnd1 : (p0.1 :: (mid.map Prod.fst ++ [pN.1])).Nodup := by
    simpa only [List.map_cons, List.map_append, List.map_nil] using hnd
  have hnd2 : p0.1 ∉ mid.map Prod.fst ++ [pN.1] ∧
      (mid.map Prod.fst ++ [pN.1]).Nodup := List.nodup_cons.mp hnd1
  have hp0ne : p0.1 ≠ pN.1 := by
    intro h
    exact hnd2.1 (List.mem_append.mpr (Or.inr (by simp [h])))
  have hp0nmid : p0.1 ∉ mid.map Prod.fst := fun h =>
    hnd2.1 (List.mem_append.mpr (Or.inl h))
  have hpNnmid : pN.1 ∉ mid.map Prod.fst := by
    intro h
    rcases List.nodup_append.mp hnd2.2 with ⟨_, _, hdisj2⟩
    exact hdisj2 h (by simp)
  -- the fill phase: the first `cap` pairs
  have hndL : ((p0 :: mid).map Prod.fst).Nodup := by
    rw [List.map_cons]
    exact List.nodup_cons.mpr ⟨hp0nmid, (List.nodup_append.mp hnd2.2).1⟩
  have hfill := putEach_fill (p0 :: mid) c0 (wf_create hc)
    (fun p _ => by rw [hkeys0]; exact List.not_mem_nil p.1)
    hndL
    (by rw [hsize0, hcap0]; simp only [List.length_cons]; omega)
  obtain ⟨wfill, hefill, hsfill, hcfill⟩ := hfill
  rw [he0, List.append_nil] at hefill
  -- the overflowing final put
  have hsplit : putEach c0 (p0 :: (mid ++ [pN])) =
      (cache_put true (putEach c0 (p0 :: mid)) pN.1 pN.2).1 := by
    rw [show p0 :: (mid ++ [pN]) = (p0 :: mid) ++ [pN] from rfl, putEach_append]
    rfl
  have hkeysfill : cache_keys (putEach c0 (p0 :: mid)) =
      ((p0 :: mid).map Prod.fst).reverse := by
    rw [cache_keys_eq_map_fst, hefill, List.map_reverse]
  have hnoneN : chain_find (putEach c0 (p0 :: mid)) pN.1 = none := by
    refine wfill.chain_find_none_iff.mpr ?_
    rw [hkeysfill]
    simp only [List.mem_reverse, List.map_cons, List.mem_cons]
    rintro (h | h)
    · exact hp0ne h.symm
    · exact hpNnmid h
  have hover : (putEach c0 (p0 :: mid)).capacity < (putEach c0 (p0 :: mid)).size + 1 := by
    rw [hcfill, hsfill, hsize0, hcap0]
    simp only [List.length_cons]
    omega
  have hfin : putEach c0 (p0 :: (mid ++ [pN])) =
      evict_tail (put_insert (putEach c0 (p0 :: mid)) pN.1 pN.2) := by
    rw [hsplit, cache_put_insert_eq pN.2 hnoneN, if_pos hover]
  have w5 : Wf (put_insert (putEach c0 (p0 :: mid)) pN.1 pN.2) :=
    wf_put_insert wfill pN.2 hnoneN
  have he5 : entries (put_insert (putEach c0 (p0 :: mid)) pN.1 pN.2) =
      pN :: (p0 :: mid).reverse := by
    rw [entries_put_insert wfill pN.1 pN.2, hefill]
  have hdll5ne : (put_insert (putEach c0 (p0 :: mid)) pN.1 pN.2).dll ≠ [] := by
    rw [put_insert_dll]
    exact List.cons_ne_nil _ _
  have wfin : Wf (putEach c0 (p0 :: (mid ++ [pN]))) := by
    rw [hfin]
    exact wf_evict_tail w5
  have hefin : entries (putEach c0 (p0 :: (mid ++ [pN]))) = pN :: mid.reverse := by
    rw [hfin, entries_evict_tail w5 hdll5ne, he5]
    rw [List.reverse_cons]
    rw [show pN :: (mid.reverse ++ [p0]) = (pN :: mid.reverse) ++ [p0] from rfl]
    rw [List.dropLast_concat]
  constructor
  · show (cache_get (putEach c0 (p0 :: (mid ++ [pN]))) p0.1).2 = none
    have hp0out : p0.1 ∉ cache_keys (putEach c0 (p0 :: (mid ++ [pN]))) := by
      rw [cache_keys_eq_map_fst, hefin]
      simp only [List.map_cons, List.mem_cons, List.map_reverse, List.mem_reverse]
      rintro (h | h)
      · exact hp0ne h
      · exact hp0nmid h
    rw [cache_get_miss (wfin.chain_find_none_iff.mpr hp0out)]
  · intro p hp
    have hmem : (p.1, p.2) ∈ entries (putEach c0 (p0 :: (mid ++ [pN]))) := by
      rw [hefin]
      rcases List.mem_append.mp hp with h | h
      · exact List.mem_cons_of_mem pN (by simpa using h)
      · have : p = pN := by simpa using h
        subst this
        exact List.mem_cons_self _ _
    exact cache_get_value wfin hmem

/-- Concrete instance of C2: capacity 2, three distinct keys — the first
is evicted, the other two are retrievable. -/
theorem lruEvictsExactlyFirstInserted_witness :
    cache_create true 2 = some cache2 ∧
    ([([1], [10]), ([2], [20]), ([3], [30])].map Prod.fst).Nodup ∧
    (cache_get (putEach cache2 [([1], [10]), ([2], [20]), ([3], [30])]) [1]).2 = none ∧
    ∀ p ∈ [([2], [20]), ([3], [30])],
      (cache_get (putEach cache2 [([1], [10]), ([2], [20]), ([3], [30])]) p.1).2 = some p.2 :=
  ⟨rfl, by decide,
    (lruEvictsExactlyFirstInserted 2 cache2 rfl
      [([1], [10]), ([2], [20]), ([3], [30])] rfl (by decide)).1,
    (lruEvictsExactlyFirstInserted 2 cache2 rfl
      [([1], [10]), ([2], [20]), ([3], [30])] rfl (by decide)).2⟩

end CacheManager
